import Mathlib

/-!
Shallow embedding of the `algebra-groups` repository (`src/functions.py` and
`src/groups.py`), together with theorems settling the specification claims.

Conventions used throughout:
* Python lists/tuples of group elements become `List α`.
* Python generators become the `List` of their emissions, in emission order.
* Python `None` sentinels become `Option.none`.
* A Python runtime error (AttributeError on an unset attribute, KeyError on a
  dict lookup) is modelled by an explicit error value (`Option.none` on the
  result type, or a dedicated error constructor), never by a default value.
* Machine integers do not occur: Python integers are unbounded, so `Nat`/`Int`
  model them exactly.
-/

namespace Groups

variable {α β : Type}

/-- `itertools.combinations A k`, as used by `powerset` in `src/functions.py`:
all length-`k` position-subsequences of `A`, in the lexicographic-by-position
order that `itertools.combinations` documents (all tuples containing the first
element come first, recursively). -/
def combinations : Nat → List α → List (List α)
  | 0, _ => [[]]
  | _ + 1, [] => []
  | k + 1, x :: xs => (combinations k xs).map (x :: ·) ++ combinations (k + 1) xs

/-- The middle loop of `powerset` (`src/functions.py` lines 5-7):
`for i in range(1, len(A)): yield from itertools.combinations(A, i)`.
`combosUpTo A m` is the concatenation of the blocks for sizes `1, …, m`,
so the loop's emissions are `combosUpTo A (A.length - 1)`. -/
def combosUpTo (A : List α) : Nat → List (List α)
  | 0 => []
  | k + 1 => combosUpTo A k ++ combinations (k + 1) A

/-- `powerset` from `src/functions.py`: yields the empty tuple, then all
combinations of sizes `1 … len(A)-1`, then the full tuple `A`. -/
def powerset (A : List α) : List (List α) :=
  [] :: (combosUpTo A (A.length - 1) ++ [A])

/-- The `Group` object of `src/groups.py` after a successful `__init__`:
the element collection, the injected binary operation `fn`, and the cached
`identity` attribute set by `cache_identity`.  The cached `inverses` dict is
derived data (`inverses[g] = inverse(g)` for `g ∈ elements`) and is modelled
by the functions `inverseS` / `inversesDict` below, which compute exactly the
values the constructor stores. -/
structure Group (α : Type) where
  elements : List α
  fn : α → α → α
  identity : α

/-- `Group.is_identity` (`src/groups.py` lines 49-53): `a` is an identity iff
`fn a b = b` and `fn b a = b` for every `b` in the element collection. -/
def is_identity [DecidableEq α] (elements : List α) (fn : α → α → α) (a : α) : Bool :=
  elements.all (fun b => decide (fn a b = b) && decide (fn b a = b))

/-- The search performed by `Group.cache_identity` (lines 40-44): the first
element of the collection that `is_identity` accepts, or `none` when the loop
finds nothing (in which case the `identity` attribute is never assigned). -/
def cache_identity [DecidableEq α] (elements : List α) (fn : α → α → α) : Option α :=
  elements.find? (fun a => is_identity elements fn a)

/-- The search performed by `Group.inverse` (lines 81-85): the first `b` in the
element collection with `fn a b = identity`, else the `None` sentinel. -/
def inverseSearch [DecidableEq α] (elements : List α) (fn : α → α → α)
    (identity a : α) : Option α :=
  elements.find? (fun b => decide (fn a b = identity))

/-- Outcome of running the `Group` constructor (`__init__`, lines 15-19). -/
inductive BuildResult (α : Type) where
  /-- `cache_identity` found and stored an identity; construction completed. -/
  | ok (g : Group α)
  /-- No identity exists and the collection is non-empty: `cache_inverses`
  calls `inverse`, which reads the never-assigned `self.identity` attribute,
  so the constructor raises `AttributeError`. -/
  | attributeError
  /-- No identity exists and the collection is empty: the `cache_inverses`
  loop body never runs, so the constructor returns an object whose `identity`
  attribute was never assigned (unusable by every downstream operation). -/
  | identityUnset

/-- `Group.__init__` (lines 15-19): store `elements` and `fn`, run
`cache_identity`, then `cache_inverses`.  The cached `inverses` dict always
equals `fun g => inverseSearch elements fn identity g` on the keys
`g ∈ elements`, so it is not stored separately. -/
def buildGroup [DecidableEq α] (elements : List α) (fn : α → α → α) : BuildResult α :=
  match cache_identity elements fn with
  | some e => .ok { elements := elements, fn := fn, identity := e }
  | none => if elements.isEmpty then .identityUnset else .attributeError

/-- The inverse search of a constructed group (`Group.inverse`, lines 81-85). -/
def Group.inverseS [DecidableEq α] (G : Group α) (a : α) : Option α :=
  inverseSearch G.elements G.fn G.identity a

/-- The cached `inverses` dict (`cache_inverses`, lines 55-58) read through
`self.inverses[b]`: `none` models the `KeyError` raised when `b` is not a key
(not an element); `some none` is a stored `None` sentinel (no inverse found);
`some (some c)` is a stored inverse `c`. -/
def Group.inversesDict [DecidableEq α] (G : Group α) (b : α) : Option (Option α) :=
  if b ∈ G.elements then some (G.inverseS b) else none

/-- The cached inverse as a plain value, for stating theorems about valid
groups (where `inverseS` always returns `some`): `getD` defaults to `a`
itself, a case that never arises under `Group.Valid`. -/
def Group.inv [DecidableEq α] (G : Group α) (a : α) : α :=
  (G.inverseS a).getD a

/-- The loop of `Group.powerOf` (lines 73-75): starting from accumulator `b`,
apply `b := fn b c` a total of `k` times. -/
def powerLoop (fn : α → α → α) (b c : α) : Nat → α
  | 0 => b
  | k + 1 => powerLoop fn (fn b c) c k

/-- `Group.powerOf` (lines 69-76).  For `n = 0` it returns the cached
identity.  Otherwise the accumulator starts at `b = a` and the loop applies
`fn` to it `|n|` times, with `c = a` when `n > 0` and `c = inverse(a)` when
`n < 0`.  The Python body recomputes `self.inverse(a)` on every iteration but
the value is the same each time, so it is hoisted here; if that search returns
the `None` sentinel, the first loop iteration applies `fn` to `None` and the
call dies, modelled as `none`. -/
def Group.powerOf [DecidableEq α] (G : Group α) (a : α) (n : Int) : Option α :=
  if n = 0 then some G.identity
  else if 0 < n then some (powerLoop G.fn a a n.natAbs)
  else
    match G.inverseS a with
    | some c => some (powerLoop G.fn a c n.natAbs)
    | none => none

/-- The `(k+1)`-fold product `a · a · ⋯ · a` (`k+1` factors, left associated):
the mathematical iterated product used to describe what `powerOf` and `order`
actually compute.  `iterProd fn a 0 = a`, `iterProd fn a (k+1) = fn (iterProd fn a k) a`. -/
def iterProd (fn : α → α → α) (a : α) : Nat → α
  | 0 => a
  | k + 1 => fn (iterProd fn a k) a

/-- The loop of `Group.order` (lines 181-187): `n = 1; x = a; while x != identity:
x = fn x a; n += 1; return n`.  The Python loop has no bound, so it is modelled
with explicit fuel; `none` means the loop has not terminated within `fuel`
iterations (and `order_behavior` below shows it never terminates when no power
of `a` reaches the identity). -/
def orderAux [DecidableEq α] (G : Group α) (a x : α) (n : Nat) : Nat → Option Nat
  | 0 => none
  | fuel + 1 => if x = G.identity then some n else orderAux G a (G.fn x a) (n + 1) fuel

/-- `Group.order` (lines 181-187), fuelled. -/
def Group.order [DecidableEq α] (G : Group α) (a : α) (fuel : Nat) : Option Nat :=
  orderAux G a a 1 fuel

/-- The trivial group on `{0}` (used as a concrete witness input). -/
def z1 : Group Nat := { elements := [0], fn := fun a b => (a + b) % 1, identity := 0 }

/-- The cyclic group of order 2: `{0, 1}` under addition mod 2. -/
def z2 : Group Nat := { elements := [0, 1], fn := fun a b => (a + b) % 2, identity := 0 }

/-- The cyclic group of order 4: `{0, 1, 2, 3}` under addition mod 4. -/
def z4 : Group Nat := { elements := [0, 1, 2, 3], fn := fun a b => (a + b) % 4, identity := 0 }

/-- Canonicalisation used by `left_coset`/`right_coset` (lines 90-103):
`tuple(sorted(list(set(xs))))` — deduplicate, then sort into the element
type's total order. -/
def canon [LinearOrder α] (l : List α) : List α :=
  List.insertionSort (· ≤ ·) l.dedup

/-- `Group.left_coset` (lines 90-94): the canonicalised tuple of
`{fn a h : h ∈ subgroup}`. -/
def Group.left_coset [LinearOrder α] (G : Group α) (subgroup : List α) (a : α) : List α :=
  canon (subgroup.map (fun h => G.fn a h))

/-- `Group.right_coset` (lines 99-103): the canonicalised tuple of
`{fn h a : h ∈ subgroup}`. -/
def Group.right_coset [LinearOrder α] (G : Group α) (subgroup : List α) (a : α) : List α :=
  canon (subgroup.map (fun h => G.fn h a))

/-- `Group.left_cosets` (lines 108-109): the left coset of every element,
deduplicated (`tuple(set([...]))`).  Python's `set` iteration order is
unspecified; `dedup` keeps first occurrences, which has the same members,
and every claim about this collection is order-insensitive. -/
def Group.left_cosets [LinearOrder α] (G : Group α) (subgroup : List α) : List (List α) :=
  (G.elements.map (fun a => G.left_coset subgroup a)).dedup

/-- `Group.right_cosets` (lines 114-115), symmetric to `left_cosets`. -/
def Group.right_cosets [LinearOrder α] (G : Group α) (subgroup : List α) : List (List α) :=
  (G.elements.map (fun a => G.right_coset subgroup a)).dedup

/-- `itertools.product(l₁, l₂)`: all ordered pairs, first component varying
slowest, as the `for a, b in product(...)` loops iterate them. -/
def allPairs (l₁ l₂ : List α) : List (α × α) :=
  match l₁ with
  | [] => []
  | a :: as => l₂.map (fun b => (a, b)) ++ allPairs as l₂

/-- The pair loop of `Group.is_subgroup` (lines 123-125): for each ordered
pair `(a, b)`, look up `self.inverses[b]` and test `fn a inverses[b] ∈ H`.
`none` models a crash: a `KeyError` when `b` is not a key of the cached dict,
or the `TypeError`/`KeyError` raised by applying the operation to a stored
`None` sentinel. -/
def subgroupLoop [DecidableEq α] (G : Group α) (H : List α) : List (α × α) → Option Bool
  | [] => some true
  | p :: rest =>
    match G.inversesDict p.2 with
    | some (some c) => if G.fn p.1 c ∈ H then subgroupLoop G H rest else some false
    | _ => none

/-- `Group.is_subgroup` (lines 120-126): `False` if the cached identity is not
in `H`; otherwise check `fn a inverses[b] ∈ H` for every ordered pair in
`H × H`. -/
def Group.is_subgroup [DecidableEq α] (G : Group α) (H : List α) : Option Bool :=
  if G.identity ∈ H then subgroupLoop G H (allPairs H H) else some false

/-- The conjugation loop of `Group.is_normal_divisor` (lines 134-139): for
each `g` in the parent's elements, read `g⁻¹` from the cached dict and require
every conjugate `fn g (fn h g⁻¹)` of `h ∈ N` to lie in `N`.  As above, `none`
models a crash on a missing or `None`-valued dict entry. -/
def conjLoop [DecidableEq α] (G : Group α) (N : List α) : List α → Option Bool
  | [] => some true
  | g :: gs =>
    match G.inversesDict g with
    | some (some ginv) =>
      if N.all (fun h => decide (G.fn g (G.fn h ginv) ∈ N)) then conjLoop G N gs
      else some false
    | _ => none

/-- `Group.is_normal_divisor` (lines 131-140): require `is_subgroup N` first,
then the conjugation check over all of `G`'s elements. -/
def Group.is_normal_divisor [DecidableEq α] (G : Group α) (N : List α) : Option Bool :=
  match G.is_subgroup N with
  | some true => conjLoop G N G.elements
  | r => r

/-- `Group.subgroup` (lines 163-164): `Group(H, self.fn)` — run the
constructor on the subset with the parent's operation (shared, not copied). -/
def Group.subgroup [DecidableEq α] (G : Group α) (H : List α) : BuildResult α :=
  buildGroup H G.fn

/-- `Group.subgroups` (lines 169-170):
`map(self.subgroup, filter(self.is_subgroup, powerset(self.elements)))`.
The filter keeps the subsets on which `is_subgroup` returns `True`; if the
predicate crashed on some subset the Python generator would die there, so the
actually-yielded groups are a prefix of this list — every claim proved below
is a `∀` over this list, hence also holds for every actually-yielded group. -/
def Group.subgroups [DecidableEq α] (G : Group α) : List (BuildResult α) :=
  ((powerset G.elements).filter (fun H => decide (G.is_subgroup H = some true))).map
    (fun H => G.subgroup H)

/-- `Group.normal_divisors` (lines 175-176), identical with the
`is_normal_divisor` filter. -/
def Group.normal_divisors [DecidableEq α] (G : Group α) : List (BuildResult α) :=
  ((powerset G.elements).filter (fun H => decide (G.is_normal_divisor H = some true))).map
    (fun H => G.subgroup H)

/-- The element list `list(itertools.product(self.elements, repeat=2))` that
`Group.product` (line 216) passes to the new `Group`: note `repeat=2` draws
BOTH components from `self.elements`; `H`'s element collection is never
consulted.  (The instantiation at a single element type is what makes the
source's pairing of these elements with `H.fn` well typed at all.) -/
def Group.productElements (G : Group α) (H : Group α) : List (α × α) :=
  allPairs G.elements G.elements

/-- The operation lambda of `Group.product` (line 216): `G.fn` on first
components, `H.fn` on second components. -/
def Group.productFn (G : Group α) (H : Group α) : α × α → α × α → α × α :=
  fun a b => (G.fn a.1 b.1, H.fn a.2 b.2)

/-- `Group.product` (lines 215-216): construct a `Group` from the pair list
and the component-wise operation. -/
def Group.product [DecidableEq α] (G : Group α) (H : Group α) : BuildResult (α × α) :=
  buildGroup (G.productElements H) (G.productFn H)

/-- The dict-building loop of `Group.factorize` (lines 222-226), processing
the remaining elements `l` with the dict built so far in `acc` (an association
list in insertion order): for each `g`, compute its left coset under `N` and
insert `coset ↦ g` only if the coset is not yet a key. -/
def gnAux [LinearOrder α] (G : Group α) (N : List α) (acc : List (List α × α)) :
    List α → List (List α × α)
  | [] => acc
  | g :: gs =>
    if acc.any (fun p => decide (p.1 = G.left_coset N g)) then gnAux G N acc gs
    else gnAux G N (acc ++ [(G.left_coset N g, g)]) gs

/-- The complete `GN` dict of `Group.factorize`: canonical coset value ↦ first
representative that produced it, iterating `G.elements` in collection order. -/
def Group.buildGN [LinearOrder α] (G : Group α) (N : List α) : List (List α × α) :=
  gnAux G N [] G.elements

/-- Lookup in the `GN` dict; `none` models the `KeyError` on a missing key. -/
def dictLookup [LinearOrder α] (d : List (List α × α)) (c : List α) : Option α :=
  (d.find? (fun p => decide (p.1 = c))).map Prod.snd

/-- The element collection `sorted(list(GN.values()))` that `factorize`
(line 227) passes to the quotient `Group`. -/
def Group.factorElements [LinearOrder α] (G : Group α) (N : List α) : List α :=
  List.insertionSort (· ≤ ·) ((G.buildGN N).map Prod.snd)

/-- The operation lambda of `factorize` (line 227):
`lambda x, y: GN[self.left_coset(N.elements, self.fn(x, y))]`. -/
def Group.factorFn [LinearOrder α] (G : Group α) (N : List α) (x y : α) : Option α :=
  dictLookup (G.buildGN N) (G.left_coset N (G.fn x y))

/-- Spec-side definition, in the spec's words (§4.5): for a canonical coset
value `c`, "the first representative element `g` that produced it" — the first
`g` in `G.elements` (collection order) whose left coset under `N` equals `c`. -/
def specFirstRep [LinearOrder α] (G : Group α) (N : List α) (c : List α) : Option α :=
  G.elements.find? (fun g => decide (G.left_coset N g = c))

/-- Spec-side definition, in the spec's words (§4.5): "first-seen wins" —
scan the elements in collection order, keeping `g` exactly when its canonical
coset value has not been seen before (`seen` collects the coset values of the
elements already scanned). -/
def specRepsAux [LinearOrder α] (G : Group α) (N : List α) (seen : List (List α)) :
    List α → List α
  | [] => []
  | g :: gs =>
    if G.left_coset N g ∈ seen then specRepsAux G N seen gs
    else g :: specRepsAux G N (G.left_coset N g :: seen) gs

/-- The spec's list of first-seen coset representatives. -/
def specReps [LinearOrder α] (G : Group α) (N : List α) : List α :=
  specRepsAux G N [] G.elements

/-- `GroupActor` (`src/groups.py` lines 241-245): a group, a collection acted
upon (stored in the attribute `X`), and an action function. -/
structure GroupActor (α β : Type) where
  G : Group α
  X : List β
  fn : α → β → β

/-- `GroupActor.is_valid` (lines 250-258).  The first loop returns `False` at
the first `x ∈ X` violating the identity axiom.  The second loop iterates
`itertools.product(self.G.elements, repeat=2)` and then `for x in self.x:` —
but the constructor assigned the attribute `X`, not `x`, so the first
iteration of the outer loop raises `AttributeError` (modelled `.error ()`).
When `G.elements` is empty the outer loop has no iterations and the method
returns `True`. -/
def GroupActor.is_valid [DecidableEq β] (A : GroupActor α β) : Except Unit Bool :=
  match A.X.find? (fun x => decide (A.fn A.G.identity x ≠ x)) with
  | some _ => .ok false
  | none =>
    match A.G.elements with
    | [] => .ok true
    | _ :: _ => .error ()

/-- The group axioms on a constructed `Group` value, relative to its element
collection: closure, the cached `identity` being a genuine two-sided identity
member, associativity, and existence of two-sided inverses.  This is the
"valid input group" precondition the spec places on callers (§3, §4.2). -/
@[reducible]
def Group.Valid [DecidableEq α] (G : Group α) : Prop :=
  (∀ a ∈ G.elements, ∀ b ∈ G.elements, G.fn a b ∈ G.elements) ∧
  G.identity ∈ G.elements ∧
  (∀ a ∈ G.elements, G.fn G.identity a = a) ∧
  (∀ a ∈ G.elements, G.fn a G.identity = a) ∧
  (∀ a ∈ G.elements, ∀ b ∈ G.elements, ∀ c ∈ G.elements,
    G.fn (G.fn a b) c = G.fn a (G.fn b c)) ∧
  (∀ a ∈ G.elements, ∃ b ∈ G.elements, G.fn a b = G.identity ∧ G.fn b a = G.identity)

/-- A concrete group action used as a witness input: the trivial group acting
trivially on `[0]`. -/
def actor1 : GroupActor Nat Nat := { G := z1, X := [0], fn := fun _ x => x }

/-! ## Basic facts about valid groups -/

theorem inverseS_eq [DecidableEq α] (G : Group α) (hv : G.Valid) {a : α}
    (ha : a ∈ G.elements) :
    ∃ b, G.inverseS a = some b ∧ b ∈ G.elements ∧
      G.fn a b = G.identity ∧ G.fn b a = G.identity := by
  obtain ⟨-, -, hidl, hidr, hassoc, hinvex⟩ := hv
  obtain ⟨b₀, hb₀, hab₀, hb₀a⟩ := hinvex a ha
  have hs : (G.elements.find? (fun b => decide (G.fn a b = G.identity))).isSome :=
    List.find?_isSome.mpr ⟨b₀, hb₀, by simpa using hab₀⟩
  obtain ⟨c, hc⟩ := Option.isSome_iff_exists.mp hs
  have hcmem : c ∈ G.elements := List.mem_of_find?_eq_some hc
  have hac : G.fn a c = G.identity := by simpa using List.find?_some hc
  have hcb : c = b₀ := by
    calc c = G.fn G.identity c := (hidl c hcmem).symm
      _ = G.fn (G.fn b₀ a) c := by rw [hb₀a]
      _ = G.fn b₀ (G.fn a c) := hassoc b₀ hb₀ a ha c hcmem
      _ = G.fn b₀ G.identity := by rw [hac]
      _ = b₀ := hidr b₀ hb₀
  exact ⟨c, hc, hcmem, hac, by rw [hcb]; exact hb₀a⟩

theorem inv_spec [DecidableEq α] (G : Group α) (hv : G.Valid) {a : α}
    (ha : a ∈ G.elements) :
    G.inv a ∈ G.elements ∧ G.fn a (G.inv a) = G.identity ∧
      G.fn (G.inv a) a = G.identity := by
  obtain ⟨b, hb, hmem, h1, h2⟩ := inverseS_eq G hv ha
  unfold Group.inv
  rw [hb]
  exact ⟨hmem, h1, h2⟩

theorem cancel_left [DecidableEq α] (G : Group α) (hv : G.Valid) {a x y : α}
    (ha : a ∈ G.elements) (hx : x ∈ G.elements) (hy : y ∈ G.elements)
    (h : G.fn a x = G.fn a y) : x = y := by
  obtain ⟨hi, -, hia⟩ := inv_spec G hv ha
  obtain ⟨-, -, hidl, -, hassoc, -⟩ := hv
  calc x = G.fn G.identity x := (hidl x hx).symm
    _ = G.fn (G.fn (G.inv a) a) x := by rw [hia]
    _ = G.fn (G.inv a) (G.fn a x) := hassoc _ hi _ ha _ hx
    _ = G.fn (G.inv a) (G.fn a y) := by rw [h]
    _ = G.fn (G.fn (G.inv a) a) y := (hassoc _ hi _ ha _ hy).symm
    _ = G.fn G.identity y := by rw [hia]
    _ = y := hidl y hy

theorem cancel_right [DecidableEq α] (G : Group α) (hv : G.Valid) {a x y : α}
    (ha : a ∈ G.elements) (hx : x ∈ G.elements) (hy : y ∈ G.elements)
    (h : G.fn x a = G.fn y a) : x = y := by
  obtain ⟨hi, hai, -⟩ := inv_spec G hv ha
  obtain ⟨-, -, -, hidr, hassoc, -⟩ := hv
  calc x = G.fn x G.identity := (hidr x hx).symm
    _ = G.fn x (G.fn a (G.inv a)) := by rw [hai]
    _ = G.fn (G.fn x a) (G.inv a) := (hassoc _ hx _ ha _ hi).symm
    _ = G.fn (G.fn y a) (G.inv a) := by rw [h]
    _ = G.fn y (G.fn a (G.inv a)) := hassoc _ hy _ ha _ hi
    _ = G.fn y G.identity := by rw [hai]
    _ = y := hidr y hy

/-! ## C1: behaviour of `powerOf` -/

theorem powerLoop_succ_right (fn : α → α → α) (c : α) :
    ∀ (k : Nat) (b : α), powerLoop fn b c (k + 1) = fn (powerLoop fn b c k) c := by
  intro k
  induction k with
  | zero => intro b; rfl
  | succ k ih =>
    intro b
    show powerLoop fn (fn b c) c (k + 1) = fn (powerLoop fn (fn b c) c k) c
    exact ih (fn b c)

theorem powerLoop_self_eq_iterProd (fn : α → α → α) (a : α) :
    ∀ k, powerLoop fn a a k = iterProd fn a k := by
  intro k
  induction k with
  | zero => rfl
  | succ k ih => rw [powerLoop_succ_right, ih]; rfl

/-- C1 (amended): `powerOf(a, 0)` returns the cached identity; for `n ≠ 0`
the accumulator starts at `a` and the operation is applied `|n|` times, so
for `n > 0` the result is the `(n+1)`-fold product of `a` — in particular
`powerOf(a, 1) = operation(a, a)`, not `a` — and for `n < 0` it is `a`
combined with `inverse(a)` `|n|` times — in particular, in a valid group,
`powerOf(a, -1) = operation(a, inverse(a)) = identity`, not `inverse(a)`. -/
theorem powerOf_behavior [DecidableEq α] (G : Group α) (a : α) :
    G.powerOf a 0 = some G.identity ∧
    (∀ n : Int, 0 < n → G.powerOf a n = some (iterProd G.fn a n.natAbs)) ∧
    G.powerOf a 1 = some (G.fn a a) ∧
    (∀ n : Int, n < 0 →
      G.powerOf a n = (G.inverseS a).map (fun c => powerLoop G.fn a c n.natAbs)) ∧
    (G.Valid → a ∈ G.elements → G.powerOf a (-1) = some G.identity) := by
  have hpos : ∀ n : Int, 0 < n → G.powerOf a n = some (iterProd G.fn a n.natAbs) := by
    intro n hn
    unfold Group.powerOf
    rw [if_neg (by omega), if_pos hn, powerLoop_self_eq_iterProd]
  have hneg : ∀ n : Int, n < 0 →
      G.powerOf a n = (G.inverseS a).map (fun c => powerLoop G.fn a c n.natAbs) := by
    intro n hn
    unfold Group.powerOf
    rw [if_neg (by omega), if_neg (by omega)]
    cases G.inverseS a <;> rfl
  refine ⟨by unfold Group.powerOf; rw [if_pos rfl], hpos, ?_, hneg, ?_⟩
  · rw [hpos 1 (by omega)]; rfl
  · intro hv ha
    obtain ⟨b, hb, -, hab, -⟩ := inverseS_eq G hv ha
    rw [hneg (-1) (by omega), hb]
    show some (powerLoop G.fn a b 1) = some G.identity
    show some (G.fn a b) = some G.identity
    rw [hab]

/-- C1 counterexample: in the cyclic group of order 2 (`z2`, identity 0),
`powerOf(1, 1)` returns `0`, not `1 = a`, and `powerOf(1, -1)` returns `0`,
not `inverse(1) = 1` — refuting the claimed `powerOf(a,1) = a` and
`powerOf(a,-1) = inverse(a)` at a concrete input. -/
theorem powerOf_claim_cex :
    z2.powerOf 1 1 = some 0 ∧ z2.powerOf 1 1 ≠ some 1 ∧
    z2.inverseS 1 = some 1 ∧ z2.powerOf 1 (-1) = some 0 ∧
    z2.powerOf 1 (-1) ≠ z2.inverseS 1 ∧ z2.identity = 0 := by decide

/-- C1 witness: the amended characterisation evaluated at `z2`, `a = 1`. -/
theorem powerOf_behavior_witness :
    ((0 : Int) < 1) ∧ z2.powerOf 1 1 = some (iterProd z2.fn 1 (Int.natAbs 1)) ∧
    z2.Valid ∧ 1 ∈ z2.elements ∧ z2.powerOf 1 (-1) = some z2.identity :=
  ⟨by decide, (powerOf_behavior z2 1).2.1 1 (by decide), by decide, by decide,
   (powerOf_behavior z2 1).2.2.2.2 (by decide) (by decide)⟩

/-! ## C3: behaviour of `order` -/

theorem orderAux_finds [DecidableEq α] (G : Group α) (a : α) (m : Nat)
    (hm : iterProd G.fn a m = G.identity)
    (hleast : ∀ k, k < m → iterProd G.fn a k ≠ G.identity) :
    ∀ fuel t, t ≤ m → m - t < fuel →
      orderAux G a (iterProd G.fn a t) (t + 1) fuel = some (m + 1) := by
  intro fuel
  induction fuel with
  | zero => intro t _ h; omega
  | succ fuel ih =>
    intro t htm hfuel
    unfold orderAux
    by_cases hx : iterProd G.fn a t = G.identity
    · have : t = m := by
        by_contra hne
        exact hleast t (by omega) hx
      rw [if_pos hx, this]
    · rw [if_neg hx]
      have htm' : t < m := lt_of_le_of_ne htm (fun he => hx (he ▸ hm))
      have hstep : G.fn (iterProd G.fn a t) a = iterProd G.fn a (t + 1) := rfl
      rw [hstep]
      exact ih (t + 1) (by omega) (by omega)

theorem orderAux_none [DecidableEq α] (G : Group α) (a : α)
    (h : ∀ k, iterProd G.fn a k ≠ G.identity) :
    ∀ fuel t, orderAux G a (iterProd G.fn a t) (t + 1) fuel = none := by
  intro fuel
  induction fuel with
  | zero => intro t; rfl
  | succ fuel ih =>
    intro t
    unfold orderAux
    rw [if_neg (h t)]
    exact ih (t + 1)

/-- C3 (amended): given enough fuel, `order(a)` returns `m + 1` where `m` is
least with the `(m+1)`-fold product `a·a·⋯·a` equal to the identity — i.e.
the smallest `n ≥ 1` whose `n`-fold product of `a` is the identity (the true
group-theoretic order), rather than the smallest `n ≥ 1` with
`powerOf(a, n) = identity`; and when no iterated product of `a` reaches the
identity, the loop never terminates (no amount of fuel produces a result). -/
theorem order_behavior [DecidableEq α] (G : Group α) (a : α) :
    (∀ m : Nat, iterProd G.fn a m = G.identity →
      (∀ k, k < m → iterProd G.fn a k ≠ G.identity) →
      ∀ fuel, m < fuel → G.order a fuel = some (m + 1)) ∧
    ((∀ k, iterProd G.fn a k ≠ G.identity) → ∀ fuel, G.order a fuel = none) := by
  constructor
  · intro m hm hleast fuel hfuel
    have h0 : a = iterProd G.fn a 0 := rfl
    unfold Group.order
    rw [show (1 : Nat) = 0 + 1 from rfl, h0]
    exact orderAux_finds G a m hm hleast fuel 0 (by omega) (by omega)
  · intro h fuel
    have h0 : a = iterProd G.fn a 0 := rfl
    unfold Group.order
    rw [show (1 : Nat) = 0 + 1 from rfl, h0]
    exact orderAux_none G a h fuel 0

/-- C3 counterexample: in the cyclic group of order 4 (`z4`, identity 0),
the precondition of the claim holds — `powerOf(1, 3) = identity`, so some
`n ≥ 1` satisfies `powerOf(1, n) = identity` — yet `order(1)` returns `4`,
not the smallest such `n` (which is `3`, since `powerOf(1, 1)` and
`powerOf(1, 2)` miss the identity). -/
theorem order_claim_cex :
    z4.order 1 10 = some 4 ∧ z4.powerOf 1 3 = some z4.identity ∧
    z4.powerOf 1 1 ≠ some z4.identity ∧ z4.powerOf 1 2 ≠ some z4.identity ∧
    3 < 4 := by decide

/-- C3 witness: the amended characterisation evaluated at `z4`, `a = 1`,
least exponent `m = 3` (the 4-fold product of `1` is the identity). -/
theorem order_behavior_witness :
    iterProd z4.fn 1 3 = z4.identity ∧
    (∀ k, k < 3 → iterProd z4.fn 1 k ≠ z4.identity) ∧
    3 < 4 ∧ z4.order 1 4 = some 4 :=
  ⟨by decide, by decide, by decide,
   (order_behavior z4 1).1 3 (by decide) (by decide) 4 (by decide)⟩

/-! ## C2: behaviour of `product` -/

theorem allPairs_length (l₁ l₂ : List α) :
    (allPairs l₁ l₂).length = l₁.length * l₂.length := by
  induction l₁ with
  | nil => simp [allPairs]
  | cons a as ih =>
    show (l₂.map (fun b => (a, b)) ++ allPairs as l₂).length = (as.length + 1) * l₂.length
    rw [List.length_append, List.length_map, ih]
    ring

/-- C2: `product` passes `itertools.product(self.elements, repeat=2)` — the
Cartesian square of `G`'s own elements — to the new group, so the element
count is always `|G|²` and `H`'s element collection is never consulted.  At
the concrete failing input `G = z1` (order 1), `H = z2` (order 2), the element
list is `[(0, 0)]` of length `1`, while the claim demands `|G|·|H| = 2`. -/
theorem product_repeat_bug :
    (∀ G H : Group Nat,
      (G.productElements H).length = G.elements.length * G.elements.length) ∧
    z1.productElements z2 = [(0, 0)] ∧
    (z1.productElements z2).length = 1 ∧
    z1.elements.length * z2.elements.length = 2 := by
  exact ⟨fun G _ => allPairs_length G.elements G.elements, by decide, by decide, by decide⟩

/-! ## C8: construction on malformed input -/

/-- C8 (amended): when no identity exists, `cache_identity` silently leaves
the `identity` attribute unset, and, for a non-empty element collection, the
subsequent `cache_inverses` step raises `AttributeError` reading it — so
construction fails rather than completing silently.  When an identity is
found but some element has no inverse, the inverse search stores the `None`
not-found sentinel in the cache, and the constructed group hands that
sentinel to downstream operations instead of raising a validation error. -/
theorem buildGroup_behavior [DecidableEq α] (elements : List α) (fn : α → α → α) :
    (elements ≠ [] → cache_identity elements fn = none →
      buildGroup elements fn = BuildResult.attributeError) ∧
    (∀ e a, cache_identity elements fn = some e → (∀ b ∈ elements, fn a b ≠ e) →
      inverseSearch elements fn e a = none) ∧
    (∀ e a K, cache_identity elements fn = some e →
      buildGroup elements fn = BuildResult.ok K → K.inverseS a = inverseSearch elements fn e a) := by
  refine ⟨?_, ?_, ?_⟩
  · intro hne h
    unfold buildGroup
    rw [h]
    cases elements with
    | nil => exact absurd rfl hne
    | cons x xs => rfl
  · intro e a _ h
    exact List.find?_eq_none.mpr (fun b hb => by simpa using h b hb)
  · intro e a K h hK
    unfold buildGroup at hK
    rw [h] at hK
    cases hK
    rfl

/-- C8 counterexample: on the non-empty collection `[0, 1]` with the constant
operation (which has no identity), construction raises (`attributeError`)
instead of completing with an undefined identity, refuting "construction does
not raise". -/
theorem buildGroup_raises_cex :
    cache_identity [0, 1] (fun _ _ => 0) = none ∧
    buildGroup [0, 1] (fun _ _ => 0) = BuildResult.attributeError :=
  ⟨rfl, rfl⟩

/-- C8 witness: the amended behaviour at two concrete inputs — the no-identity
input `([0,1], λ_ _. 0)` where construction raises, and `([0,1], max)` where
the identity is `0` but `1` has no inverse, so the search returns the `None`
sentinel. -/
theorem buildGroup_behavior_witness :
    (([0, 1] : List Nat) ≠ [] ∧ cache_identity [0, 1] (fun _ _ => 0) = none ∧
      buildGroup [0, 1] (fun _ _ => 0) = BuildResult.attributeError) ∧
    (cache_identity [0, 1] (fun a b => max a b) = some 0 ∧
      (∀ b ∈ ([0, 1] : List Nat), max 1 b ≠ 0) ∧
      inverseSearch [0, 1] (fun a b => max a b) 0 1 = none) :=
  ⟨⟨by decide, by decide,
    (buildGroup_behavior [0, 1] (fun _ _ => 0)).1 (by decide) (by decide)⟩,
   ⟨by decide, by decide,
    (buildGroup_behavior [0, 1] (fun a b => max a b)).2.1 0 1 (by decide) (by decide)⟩⟩

/-! ## C9: the group-action validator -/

/-- C9: whenever the identity axiom holds on every point of `X` and the
group's element collection is non-empty, `is_valid` never returns `True`: the
identity loop passes, the compatibility loop's first iteration reads the
never-assigned attribute `self.x` (the constructor stored `self.X`), and the
call raises `AttributeError`. -/
theorem groupActor_is_valid_never_true [DecidableEq β] (A : GroupActor α β)
    (hid : ∀ x ∈ A.X, A.fn A.G.identity x = x) (hne : A.G.elements ≠ []) :
    A.is_valid = Except.error () ∧ A.is_valid ≠ Except.ok true := by
  have hf : A.X.find? (fun x => decide (A.fn A.G.identity x ≠ x)) = none :=
    List.find?_eq_none.mpr (fun x hx => by simp [hid x hx])
  unfold GroupActor.is_valid
  rw [hf]
  cases h : A.G.elements with
  | nil => exact absurd h hne
  | cons a l => exact ⟨rfl, by simp⟩

/-- C9 witness: the validator evaluated on `actor1` (trivial group acting
trivially on `[0]`): the identity axiom holds, the elements are non-empty,
and `is_valid` raises. -/
theorem groupActor_is_valid_never_true_witness :
    (∀ x ∈ actor1.X, actor1.fn actor1.G.identity x = x) ∧
    actor1.G.elements ≠ [] ∧ actor1.is_valid = Except.error () :=
  ⟨by decide, by decide,
   (groupActor_is_valid_never_true actor1 (by decide) (by decide)).1⟩

/-! ## C4: the `is_subgroup` predicate -/

theorem inversesDict_valid [DecidableEq α] (G : Group α) (hv : G.Valid) {b : α}
    (hb : b ∈ G.elements) : G.inversesDict b = some (some (G.inv b)) := by
  obtain ⟨c, hc, -, -, -⟩ := inverseS_eq G hv hb
  unfold Group.inversesDict Group.inv
  rw [if_pos hb, hc]
  rfl

theorem mem_allPairs (l₁ l₂ : List α) (p : α × α) :
    p ∈ allPairs l₁ l₂ ↔ p.1 ∈ l₁ ∧ p.2 ∈ l₂ := by
  obtain ⟨x, y⟩ := p
  induction l₁ with
  | nil => simp [allPairs]
  | cons a as ih =>
    simp only [allPairs, List.mem_append, List.mem_map, ih, List.mem_cons]
    constructor
    · rintro (⟨b, hb, heq⟩ | ⟨h1, h2⟩)
      · cases heq; exact ⟨Or.inl rfl, hb⟩
      · exact ⟨Or.inr h1, h2⟩
    · rintro ⟨h1 | h1, h2⟩
      · exact Or.inl ⟨y, h2, by rw [h1]⟩
      · exact Or.inr ⟨h1, h2⟩

theorem subgroupLoop_spec [DecidableEq α] (G : Group α) (H : List α)
    (ps : List (α × α))
    (hinv : ∀ p ∈ ps, G.inversesDict p.2 = some (some (G.inv p.2))) :
    subgroupLoop G H ps = some (decide (∀ p ∈ ps, G.fn p.1 (G.inv p.2) ∈ H)) := by
  induction ps with
  | nil => simp [subgroupLoop]
  | cons p rest ih =>
    have hp := hinv p (by simp)
    have hrest := ih (fun q hq => hinv q (List.mem_cons_of_mem p hq))
    unfold subgroupLoop
    rw [hp]
    dsimp only
    by_cases hm : G.fn p.1 (G.inv p.2) ∈ H
    · rw [if_pos hm, hrest]
      have : (∀ q ∈ rest, G.fn q.1 (G.inv q.2) ∈ H) ↔
          (∀ q ∈ p :: rest, G.fn q.1 (G.inv q.2) ∈ H) := by
        rw [List.forall_mem_cons]
        exact ⟨fun h => ⟨hm, h⟩, fun h => h.2⟩
      rw [decide_eq_decide.mpr this]
    · rw [if_neg hm]
      have : ¬ ∀ q ∈ p :: rest, G.fn q.1 (G.inv q.2) ∈ H :=
        fun hall => hm (hall p (by simp))
      rw [decide_eq_false this]

theorem inv_identity [DecidableEq α] (G : Group α) (hv : G.Valid) :
    G.inv G.identity = G.identity := by
  obtain ⟨c, hcs, hcmem, h1, -⟩ := inverseS_eq G hv hv.2.1
  have hc : c = G.identity := by
    rw [← h1]
    exact (hv.2.2.1 c hcmem).symm
  unfold Group.inv
  rw [hcs]
  exact hc

/-- C4: on a valid group `G`, `is_subgroup(H)` returns `False` whenever the
cached identity is not a member of `H`, and otherwise returns `True` exactly
when, for every ordered pair `(a, b)` in `H × H`, `operation(a, inverses[b])`
is a member of `H` (with the parent's cached inverses); no other check is
involved.  In particular it returns `True` on the one-element collection
`[identity]` and on the whole element collection. -/
theorem is_subgroup_spec [DecidableEq α] (G : Group α) (hv : G.Valid) :
    (∀ H : List α, (∀ b ∈ H, b ∈ G.elements) →
      (G.identity ∉ H → G.is_subgroup H = some false) ∧
      (G.is_subgroup H = some true ↔
        G.identity ∈ H ∧ ∀ a ∈ H, ∀ b ∈ H, G.fn a (G.inv b) ∈ H)) ∧
    G.is_subgroup [G.identity] = some true ∧
    G.is_subgroup G.elements = some true := by
  have main : ∀ H : List α, (∀ b ∈ H, b ∈ G.elements) →
      (G.identity ∉ H → G.is_subgroup H = some false) ∧
      (G.is_subgroup H = some true ↔
        G.identity ∈ H ∧ ∀ a ∈ H, ∀ b ∈ H, G.fn a (G.inv b) ∈ H) := by
    intro H hH
    have hloop := subgroupLoop_spec G H (allPairs H H)
      (fun p hp => inversesDict_valid G hv (hH p.2 ((mem_allPairs H H p).mp hp).2))
    constructor
    · intro hnotin
      unfold Group.is_subgroup
      rw [if_neg hnotin]
    · unfold Group.is_subgroup
      by_cases hin : G.identity ∈ H
      · rw [if_pos hin, hloop]
        simp only [Option.some.injEq, decide_eq_true_eq]
        constructor
        · intro h
          exact ⟨hin, fun a ha b hb => h (a, b) ((mem_allPairs H H (a, b)).mpr ⟨ha, hb⟩)⟩
        · rintro ⟨-, hall⟩
          intro p hp
          obtain ⟨h1, h2⟩ := (mem_allPairs H H p).mp hp
          exact hall p.1 h1 p.2 h2
      · rw [if_neg hin]
        simp [hin]
  refine ⟨main, ?_, ?_⟩
  · refine (main [G.identity] ?_).2.mpr ⟨by simp, ?_⟩
    · intro b hb
      rw [List.mem_singleton.mp hb]
      exact hv.2.1
    · intro a ha b hb
      rw [List.mem_singleton.mp ha, List.mem_singleton.mp hb, inv_identity G hv,
        hv.2.2.1 G.identity hv.2.1]
      simp
  · refine (main G.elements (fun b hb => hb)).2.mpr ⟨hv.2.1, ?_⟩
    intro a ha b hb
    exact hv.1 a ha (G.inv b) (inv_spec G hv hb).1

/-- C4 witness: the characterisation evaluated at the cyclic group of order 2:
`is_subgroup` accepts the trivial subgroup `[0]` and the whole collection. -/
theorem is_subgroup_spec_witness :
    z2.Valid ∧ z2.is_subgroup [z2.identity] = some true ∧
    z2.is_subgroup z2.elements = some true :=
  ⟨by decide, (is_subgroup_spec z2 (by decide)).2.1, (is_subgroup_spec z2 (by decide)).2.2⟩

/-! ## C10: every enumerated subgroup/normal divisor contains the identity -/

theorem is_subgroup_true_mem [DecidableEq α] (G : Group α) (H : List α)
    (h : G.is_subgroup H = some true) : G.identity ∈ H := by
  by_contra hn
  unfold Group.is_subgroup at h
  rw [if_neg hn] at h
  simp at h

theorem is_normal_divisor_true_subgroup [DecidableEq α] (G : Group α) (N : List α)
    (h : G.is_normal_divisor N = some true) : G.is_subgroup N = some true := by
  unfold Group.is_normal_divisor at h
  cases hs : G.is_subgroup N with
  | none => rw [hs] at h; simp at h
  | some b =>
    cases b with
    | false => rw [hs] at h; simp at h
    | true => exact hs ▸ rfl

theorem buildGroup_ok_elements [DecidableEq α] (l : List α) (f : α → α → α)
    (K : Group α) (h : buildGroup l f = BuildResult.ok K) : K.elements = l := by
  unfold buildGroup at h
  cases hc : cache_identity l f with
  | some e => rw [hc] at h; cases h; rfl
  | none =>
    rw [hc] at h
    by_cases he : l.isEmpty
    · rw [if_pos he] at h; exact BuildResult.noConfusion h
    · rw [if_neg he] at h; exact BuildResult.noConfusion h

/-- C10: the subset enumerator emits the empty tuple first; `is_subgroup`
rejects it (the identity-membership check fails on an empty collection); and
consequently every element list that `subgroups()` or `normal_divisors()`
wraps into a child `Group` — and hence every successfully constructed child
`Group` they yield — is non-empty and contains the parent's identity. -/
theorem subgroups_contain_identity [DecidableEq α] (G : Group α) :
    (powerset G.elements).head? = some [] ∧
    G.is_subgroup [] = some false ∧
    (∀ H ∈ (powerset G.elements).filter
        (fun H => decide (G.is_subgroup H = some true)),
      G.identity ∈ H ∧ H ≠ []) ∧
    (∀ R ∈ G.subgroups, ∀ K, R = BuildResult.ok K →
      G.identity ∈ K.elements ∧ K.elements ≠ []) ∧
    (∀ R ∈ G.normal_divisors, ∀ K, R = BuildResult.ok K →
      G.identity ∈ K.elements ∧ K.elements ≠ []) := by
  refine ⟨rfl, ?_, ?_, ?_, ?_⟩
  · unfold Group.is_subgroup
    rw [if_neg (List.not_mem_nil G.identity)]
  · intro H hH
    have h := of_decide_eq_true (List.mem_filter.mp hH).2
    have hm := is_subgroup_true_mem G H h
    exact ⟨hm, List.ne_nil_of_mem hm⟩
  · intro R hR K hK
    obtain ⟨H, hHf, hHR⟩ := List.mem_map.mp hR
    have h := of_decide_eq_true (List.mem_filter.mp hHf).2
    have hm := is_subgroup_true_mem G H h
    have hel : K.elements = H := buildGroup_ok_elements H G.fn K (by rw [← hHR] at hK; exact hK)
    rw [hel]
    exact ⟨hm, List.ne_nil_of_mem hm⟩
  · intro R hR K hK
    obtain ⟨H, hHf, hHR⟩ := List.mem_map.mp hR
    have h := is_normal_divisor_true_subgroup G H (of_decide_eq_true (List.mem_filter.mp hHf).2)
    have hm := is_subgroup_true_mem G H h
    have hel : K.elements = H := buildGroup_ok_elements H G.fn K (by rw [← hHR] at hK; exact hK)
    rw [hel]
    exact ⟨hm, List.ne_nil_of_mem hm⟩

/-- C10 witness: evaluated at the cyclic group of order 2: the enumerator's
first emission is the empty tuple, `is_subgroup` rejects it, and the accepted
subset `[0, 1]` contains the identity. -/
theorem subgroups_contain_identity_witness :
    (powerset z2.elements).head? = some [] ∧ z2.is_subgroup [] = some false ∧
    ([0, 1] ∈ (powerset z2.elements).filter
      (fun H => decide (z2.is_subgroup H = some true)) ∧
     z2.identity ∈ [0, 1] ∧ ([0, 1] : List Nat) ≠ []) :=
  ⟨(subgroups_contain_identity z2).1, (subgroups_contain_identity z2).2.1,
   by decide, ((subgroups_contain_identity z2).2.2.1 [0, 1] (by decide)).1,
   ((subgroups_contain_identity z2).2.2.1 [0, 1] (by decide)).2⟩

/-! ## C7: the subset enumerator -/

theorem mem_combinations :
    ∀ (A : List α) (k : Nat) (S : List α),
      S ∈ combinations k A ↔ S.Sublist A ∧ S.length = k := by
  intro A
  induction A with
  | nil =>
    intro k S
    cases k with
    | zero =>
      simp only [combinations, List.mem_singleton, List.sublist_nil, List.length_eq_zero]
      exact ⟨fun h => ⟨h, h⟩, fun h => h.1⟩
    | succ k =>
      simp only [combinations, List.not_mem_nil, false_iff, List.sublist_nil]
      rintro ⟨rfl, h⟩
      simp at h
  | cons x xs ih =>
    intro k S
    cases k with
    | zero =>
      simp only [combinations, List.mem_singleton, List.length_eq_zero]
      constructor
      · rintro rfl; exact ⟨List.nil_sublist _, rfl⟩
      · exact fun h => h.2
    | succ k =>
      simp only [combinations, List.mem_append, List.mem_map, ih]
      constructor
      · rintro (⟨t, ⟨ht, htl⟩, rfl⟩ | ⟨hs, hl⟩)
        · exact ⟨List.Sublist.cons₂ x ht, by simp [htl]⟩
        · exact ⟨List.Sublist.cons x hs, hl⟩
      · rintro ⟨hs, hl⟩
        cases hs with
        | cons _ h => exact Or.inr ⟨h, hl⟩
        | cons₂ _ h =>
          exact Or.inl ⟨_, ⟨h, by simpa using hl⟩, rfl⟩

theorem length_combinations :
    ∀ (A : List α) (k : Nat), (combinations k A).length = A.length.choose k := by
  intro A
  induction A with
  | nil =>
    intro k
    cases k with
    | zero => rfl
    | succ k => rfl
  | cons x xs ih =>
    intro k
    cases k with
    | zero => simp [combinations]
    | succ k =>
      show ((combinations k xs).map (x :: ·) ++ combinations (k + 1) xs).length = _
      rw [List.length_append, List.length_map, ih, ih, List.length_cons,
        Nat.choose_succ_succ]

theorem nodup_combinations {A : List α} (hA : A.Nodup) :
    ∀ k, (combinations k A).Nodup := by
  induction A with
  | nil =>
    intro k
    cases k with
    | zero => simp [combinations]
    | succ k => simp [combinations]
  | cons x xs ih =>
    intro k
    have hx : x ∉ xs := (List.nodup_cons.mp hA).1
    have hxs : xs.Nodup := (List.nodup_cons.mp hA).2
    cases k with
    | zero => simp [combinations]
    | succ k =>
      refine List.Nodup.append ?_ (ih hxs (k + 1)) ?_
      · exact (ih hxs k).map (fun a b h => ((List.cons.injEq x a x b).mp h).2)
      · intro S hS1 hS2
        obtain ⟨t, -, rfl⟩ := List.mem_map.mp hS1
        have hs := ((mem_combinations xs (k + 1) (x :: t)).mp hS2).1
        exact hx (hs.mem (by simp))

theorem count_eq_one_of_nodup {β : Type} [BEq β] [LawfulBEq β] {l : List β} {a : β}
    (d : l.Nodup) (h : a ∈ l) : l.count a = 1 := by
  induction l with
  | nil => simp at h
  | cons x xs ih =>
    rw [List.count_cons]
    rcases List.mem_cons.mp h with rfl | hmem
    · rw [if_pos (by simp), List.count_eq_zero.mpr (List.nodup_cons.mp d).1]
    · have hax : ¬(x == a) = true := by
        simp only [beq_iff_eq]
        rintro rfl
        exact (List.nodup_cons.mp d).1 hmem
      rw [if_neg hax, ih (List.nodup_cons.mp d).2 hmem]

theorem count_combinations [DecidableEq α] {A : List α} (hA : A.Nodup)
    (k : Nat) (S : List α) :
    (combinations k A).count S = if S.Sublist A ∧ S.length = k then 1 else 0 := by
  by_cases h : S.Sublist A ∧ S.length = k
  · rw [if_pos h]
    exact count_eq_one_of_nodup (nodup_combinations hA k)
      ((mem_combinations A k S).mpr h)
  · rw [if_neg h]
    exact List.count_eq_zero.mpr (fun hm => h ((mem_combinations A k S).mp hm))

theorem count_combosUpTo [DecidableEq α] {A : List α} (hA : A.Nodup) (S : List α) :
    ∀ m, (combosUpTo A m).count S =
      if S.Sublist A ∧ 1 ≤ S.length ∧ S.length ≤ m then 1 else 0 := by
  intro m
  induction m with
  | zero =>
    rw [if_neg (by rintro ⟨-, h1, h2⟩; omega)]
    rfl
  | succ m ih =>
    show (combosUpTo A m ++ combinations (m + 1) A).count S = _
    rw [List.count_append, ih, count_combinations hA]
    by_cases hs : S.Sublist A
    · by_cases hlen : S.length = m + 1
      · rw [if_neg (by rintro ⟨-, -, h⟩; omega), if_pos ⟨hs, hlen⟩,
          if_pos ⟨hs, by omega, by omega⟩]
      · by_cases h1 : 1 ≤ S.length ∧ S.length ≤ m
        · rw [if_pos ⟨hs, h1.1, h1.2⟩, if_neg (by rintro ⟨-, h⟩; exact hlen h),
            if_pos ⟨hs, h1.1, by omega⟩]
        · rw [if_neg (by rintro ⟨-, ha, hb⟩; exact h1 ⟨ha, hb⟩),
            if_neg (by rintro ⟨-, h⟩; exact hlen h),
            if_neg (by rintro ⟨-, ha, hb⟩; exact h1 ⟨ha, by omega⟩)]
    · rw [if_neg (fun h => hs h.1), if_neg (fun h => hs h.1), if_neg (fun h => hs h.1)]

theorem length_combosUpTo (A : List α) :
    ∀ m, (combosUpTo A m).length =
      (Finset.range m).sum (fun k => A.length.choose (k + 1)) := by
  intro m
  induction m with
  | zero => rfl
  | succ m ih =>
    show (combosUpTo A m ++ combinations (m + 1) A).length = _
    rw [List.length_append, ih, length_combinations, Finset.sum_range_succ]

/-- C7: the subset enumerator emits the empty tuple first and the full tuple
last; for `n = 0` the two coincide and the same value is emitted twice
(`powerset [] = [[], []]`); for `n ≥ 1` it makes exactly `2 ^ n` emissions
(so `8` for a 3-element collection) and, on a duplicate-free collection,
every subset (every position-subsequence) is emitted exactly once. -/
theorem powerset_contract [DecidableEq α] (A : List α) (hA : A.Nodup) :
    (powerset A).head? = some [] ∧
    (powerset A).getLast? = some A ∧
    (A = [] → powerset A = [[], []]) ∧
    (1 ≤ A.length → (powerset A).length = 2 ^ A.length) ∧
    (A.length = 3 → (powerset A).length = 8) ∧
    (1 ≤ A.length → ∀ S : List α,
      (powerset A).count S = if S.Sublist A then 1 else 0) := by
  have hlast : (powerset A).getLast? = some A := by
    rw [show powerset A = ([] :: combosUpTo A (A.length - 1)) ++ [A] from rfl]
    exact List.getLast?_concat _
  have hlen : 1 ≤ A.length → (powerset A).length = 2 ^ A.length := by
    intro h1
    obtain ⟨m, hm⟩ : ∃ m, A.length = m + 1 := ⟨A.length - 1, by omega⟩
    have hl1 : (powerset A).length = (combosUpTo A (A.length - 1)).length + 2 := by
      show (combosUpTo A (A.length - 1) ++ [A]).length + 1 = _
      rw [List.length_append]
      simp
    rw [hl1, length_combosUpTo, hm]
    have e1 : (Finset.range (m + 2)).sum (fun i => (m + 1).choose i) = 2 ^ (m + 1) :=
      Nat.sum_range_choose (m + 1)
    have e2 : (Finset.range (m + 2)).sum (fun i => (m + 1).choose i) =
        (Finset.range (m + 1)).sum (fun k => (m + 1).choose (k + 1)) + (m + 1).choose 0 :=
      Finset.sum_range_succ' _ (m + 1)
    have e3 : (Finset.range (m + 1)).sum (fun k => (m + 1).choose (k + 1)) =
        (Finset.range m).sum (fun k => (m + 1).choose (k + 1)) + (m + 1).choose (m + 1) :=
      Finset.sum_range_succ _ m
    rw [Nat.choose_zero_right] at e2
    rw [Nat.choose_self] at e3
    simp only [Nat.add_sub_cancel]
    omega
  refine ⟨rfl, hlast, ?_, hlen, ?_, ?_⟩
  · rintro rfl; rfl
  · intro h3
    rw [hlen (by omega), h3]
    norm_num
  · intro h1 S
    have hAne : A ≠ [] := by
      intro h
      rw [h] at h1
      simp at h1
    show ([] :: (combosUpTo A (A.length - 1) ++ [A])).count S = _
    rw [List.count_cons, List.count_append, count_combosUpTo hA]
    by_cases hS0 : S = []
    · subst hS0
      rw [if_pos (List.nil_sublist A)]
      rw [if_neg (by rintro ⟨-, h, -⟩; simp at h)]
      have : [A].count ([] : List α) = 0 :=
        List.count_eq_zero.mpr (by simp [Ne.symm hAne])
      rw [this]
      simp
    · by_cases hSA : S = A
      · subst hSA
        rw [if_pos (List.Sublist.refl S)]
        rw [if_neg (by
          rintro ⟨-, -, h⟩
          have := List.length_pos.mpr hS0
          omega)]
        have : [S].count S = 1 := by simp
        rw [this]
        simp [hS0]
      · by_cases hs : S.Sublist A
        · rw [if_pos hs]
          have hlt : S.length < A.length := by
            have hle := hs.length_le
            rcases lt_or_eq_of_le hle with h | h
            · exact h
            · exact absurd (hs.eq_of_length h) hSA
          rw [if_pos ⟨hs, by
            have := List.length_pos.mpr hS0
            omega, by omega⟩]
          have : [A].count S = 0 := List.count_eq_zero.mpr (by simp [hSA])
          rw [this]
          simp [hS0]
        · rw [if_neg hs, if_neg (fun h => hs h.1)]
          have : [A].count S = 0 := List.count_eq_zero.mpr (by simp [hSA])
          rw [this]
          simp [hS0]

/-- C7 witness: the contract evaluated on the 3-element collection
`[0, 1, 2]`: 8 emissions, and the subset `[0, 2]` is emitted exactly once. -/
theorem powerset_contract_witness :
    ([0, 1, 2] : List Nat).Nodup ∧ 1 ≤ ([0, 1, 2] : List Nat).length ∧
    (powerset [0, 1, 2]).length = 8 ∧
    (powerset [0, 1, 2]).count [0, 2] =
      if ([0, 2] : List Nat).Sublist [0, 1, 2] then 1 else 0 :=
  ⟨by decide, by decide, (powerset_contract [0, 1, 2] (by decide)).2.2.2.2.1 (by decide),
   (powerset_contract [0, 1, 2] (by decide)).2.2.2.2.2 (by decide) [0, 2]⟩

/-! ## C5: the quotient construction `factorize` -/

theorem specRepsAux_congr [LinearOrder α] (G : Group α) (N : List α) :
    ∀ (l : List α) (s₁ s₂ : List (List α)), (∀ c, c ∈ s₁ ↔ c ∈ s₂) →
      specRepsAux G N s₁ l = specRepsAux G N s₂ l := by
  intro l
  induction l with
  | nil => intro s₁ s₂ _; rfl
  | cons g gs ih =>
    intro s₁ s₂ h
    unfold specRepsAux
    by_cases hc : G.left_coset N g ∈ s₁
    · rw [if_pos hc, if_pos ((h _).mp hc)]
      exact ih _ _ h
    · rw [if_neg hc, if_neg (fun hx => hc ((h _).mpr hx))]
      congr 1
      refine ih _ _ (fun c => ?_)
      simp only [List.mem_cons, h c]

theorem gnAux_map_snd [LinearOrder α] (G : Group α) (N : List α) :
    ∀ (l : List α) (acc : List (List α × α)),
      (gnAux G N acc l).map Prod.snd =
        acc.map Prod.snd ++ specRepsAux G N (acc.map Prod.fst) l := by
  intro l
  induction l with
  | nil => intro acc; simp [gnAux, specRepsAux]
  | cons g gs ih =>
    intro acc
    unfold gnAux specRepsAux
    by_cases hc : (acc.any (fun p => decide (p.1 = G.left_coset N g))) = true
    · have hmem : G.left_coset N g ∈ acc.map Prod.fst := by
        obtain ⟨p, hp, hpd⟩ := List.any_eq_true.mp hc
        exact List.mem_map.mpr ⟨p, hp, of_decide_eq_true hpd⟩
      rw [if_pos hc, if_pos hmem]
      exact ih acc
    · have hmem : G.left_coset N g ∉ acc.map Prod.fst := by
        intro hx
        obtain ⟨p, hp, hpd⟩ := List.mem_map.mp hx
        exact hc (List.any_eq_true.mpr ⟨p, hp, decide_eq_true hpd⟩)
      rw [if_neg hc, if_neg hmem, ih (acc ++ [(G.left_coset N g, g)])]
      rw [List.map_append, List.map_append]
      simp only [List.map_cons, List.map_nil]
      rw [specRepsAux_congr G N gs (acc.map Prod.fst ++ [G.left_coset N g])
        (G.left_coset N g :: acc.map Prod.fst)
        (fun c => by simp [List.mem_append, Or.comm])]
      simp

theorem gnAux_lookup [LinearOrder α] (G : Group α) (N : List α) :
    ∀ (l : List α) (acc : List (List α × α)) (c : List α),
      dictLookup (gnAux G N acc l) c =
        (dictLookup acc c).or (l.find? (fun g => decide (G.left_coset N g = c))) := by
  intro l
  induction l with
  | nil => intro acc c; simp [gnAux, Option.or_none]
  | cons g gs ih =>
    intro acc c
    unfold gnAux
    by_cases hc : (acc.any (fun p => decide (p.1 = G.left_coset N g))) = true
    · rw [if_pos hc, ih acc c]
      by_cases hgc : G.left_coset N g = c
      · have hsome : (dictLookup acc c).isSome := by
          obtain ⟨p, hp, hpd⟩ := List.any_eq_true.mp hc
          have hpc : p.1 = c := by rw [of_decide_eq_true hpd, hgc]
          unfold dictLookup
          rw [Option.isSome_map']
          exact List.find?_isSome.mpr ⟨p, hp, decide_eq_true hpc⟩
        obtain ⟨v, hv⟩ := Option.isSome_iff_exists.mp hsome
        rw [hv, Option.or_some, Option.or_some]
      · rw [List.find?_cons_of_neg _ (by simpa using hgc)]
    · rw [if_neg hc, ih (acc ++ [(G.left_coset N g, g)]) c]
      have hsplit : dictLookup (acc ++ [(G.left_coset N g, g)]) c =
          (dictLookup acc c).or (if G.left_coset N g = c then some g else none) := by
        unfold dictLookup
        rw [List.find?_append]
        cases hfa : acc.find? (fun p => decide (p.1 = c)) with
        | some p => simp [Option.or_some]
        | none =>
          simp only [Option.none_or]
          by_cases hgc : G.left_coset N g = c
          · rw [List.find?_cons_of_pos _ (by simpa using hgc), if_pos hgc]
            rfl
          · rw [List.find?_cons_of_neg _ (by simpa using hgc), if_neg hgc]
            rfl
      rw [hsplit]
      by_cases hgc : G.left_coset N g = c
      · rw [if_pos hgc, List.find?_cons_of_pos _ (by simpa using hgc),
          Option.or_assoc, Option.or_some]
      · rw [if_neg hgc, List.find?_cons_of_neg _ (by simpa using hgc), Option.or_none]

/-- C5: `factorize(N)` iterates `G`'s elements in collection order, maps each
left coset under `N`'s elements to the first element that produced it
(first-seen wins — `specRepsAux`), takes as element collection the sorted
list of these first-seen representatives, and as operation on `x, y` the dict
lookup returning the representative first seen for the left coset of
`operation(x, y)` under `N` (`specFirstRep`). -/
theorem factorize_spec [LinearOrder α] (G : Group α) (N : Group α) :
    G.factorElements N.elements =
      List.insertionSort (· ≤ ·) (specReps G N.elements) ∧
    ∀ x y, G.factorFn N.elements x y =
      specFirstRep G N.elements (G.left_coset N.elements (G.fn x y)) := by
  constructor
  · unfold Group.factorElements Group.buildGN specReps
    rw [gnAux_map_snd]
    rfl
  · intro x y
    unfold Group.factorFn Group.buildGN specFirstRep
    rw [gnAux_lookup]
    simp [dictLookup]

/-! ## C6: cosets partition the group -/

theorem canon_perm [LinearOrder α] (l : List α) : List.Perm (canon l) l.dedup :=
  List.perm_insertionSort _ _

theorem mem_canon [LinearOrder α] (l : List α) (x : α) : x ∈ canon l ↔ x ∈ l :=
  (canon_perm l).mem_iff.trans List.mem_dedup

theorem canon_nodup [LinearOrder α] (l : List α) : (canon l).Nodup :=
  (canon_perm l).nodup_iff.mpr (List.nodup_dedup l)

theorem canon_sorted [LinearOrder α] (l : List α) :
    List.Sorted (· ≤ ·) (canon l) :=
  List.sorted_insertionSort _ _

theorem canon_eq_of_mem_iff [LinearOrder α] {l₁ l₂ : List α}
    (h : ∀ x, x ∈ l₁ ↔ x ∈ l₂) : canon l₁ = canon l₂ :=
  List.eq_of_perm_of_sorted
    ((List.perm_ext_iff_of_nodup (canon_nodup l₁) (canon_nodup l₂)).mpr
      (fun x => (mem_canon l₁ x).trans ((h x).trans (mem_canon l₂ x).symm)))
    (canon_sorted l₁) (canon_sorted l₂)

theorem canon_length_of_nodup [LinearOrder α] {l : List α} (h : l.Nodup) :
    (canon l).length = l.length := by
  rw [(canon_perm l).length_eq, List.dedup_eq_self.mpr h]

theorem mem_left_coset [LinearOrder α] (G : Group α) (H : List α) (a x : α) :
    x ∈ G.left_coset H a ↔ ∃ h ∈ H, G.fn a h = x := by
  unfold Group.left_coset
  rw [mem_canon]
  simp [List.mem_map]

theorem mem_right_coset [LinearOrder α] (G : Group α) (H : List α) (a x : α) :
    x ∈ G.right_coset H a ↔ ∃ h ∈ H, G.fn h a = x := by
  unfold Group.right_coset
  rw [mem_canon]
  simp [List.mem_map]

theorem mem_left_cosets [LinearOrder α] (G : Group α) (H : List α) (C : List α) :
    C ∈ G.left_cosets H ↔ ∃ a ∈ G.elements, G.left_coset H a = C := by
  unfold Group.left_cosets
  rw [List.mem_dedup]
  simp [List.mem_map]

theorem mem_right_cosets [LinearOrder α] (G : Group α) (H : List α) (C : List α) :
    C ∈ G.right_cosets H ↔ ∃ a ∈ G.elements, G.right_coset H a = C := by
  unfold Group.right_cosets
  rw [List.mem_dedup]
  simp [List.mem_map]

theorem left_coset_length [LinearOrder α] (G : Group α) (H : List α)
    (hv : G.Valid) (hsub : ∀ h ∈ H, h ∈ G.elements) (hnd : H.Nodup)
    {a : α} (ha : a ∈ G.elements) :
    (G.left_coset H a).length = H.length := by
  have hmap : (H.map (fun h => G.fn a h)).Nodup :=
    List.Nodup.map_on
      (fun x hx y hy hxy => cancel_left G hv ha (hsub x hx) (hsub y hy) hxy) hnd
  unfold Group.left_coset
  rw [canon_length_of_nodup hmap, List.length_map]

theorem right_coset_length [LinearOrder α] (G : Group α) (H : List α)
    (hv : G.Valid) (hsub : ∀ h ∈ H, h ∈ G.elements) (hnd : H.Nodup)
    {a : α} (ha : a ∈ G.elements) :
    (G.right_coset H a).length = H.length := by
  have hmap : (H.map (fun h => G.fn h a)).Nodup :=
    List.Nodup.map_on
      (fun x hx y hy hxy => cancel_right G hv ha (hsub x hx) (hsub y hy) hxy) hnd
  unfold Group.right_coset
  rw [canon_length_of_nodup hmap, List.length_map]

theorem left_coset_subset_elements [LinearOrder α] (G : Group α) (H : List α)
    (hv : G.Valid) (hsub : ∀ h ∈ H, h ∈ G.elements) {a : α} (ha : a ∈ G.elements) :
    ∀ x ∈ G.left_coset H a, x ∈ G.elements := by
  intro x hx
  obtain ⟨h, hh, he⟩ := (mem_left_coset G H a x).mp hx
  rw [← he]
  exact hv.1 a ha h (hsub h hh)

theorem right_coset_subset_elements [LinearOrder α] (G : Group α) (H : List α)
    (hv : G.Valid) (hsub : ∀ h ∈ H, h ∈ G.elements) {a : α} (ha : a ∈ G.elements) :
    ∀ x ∈ G.right_coset H a, x ∈ G.elements := by
  intro x hx
  obtain ⟨h, hh, he⟩ := (mem_right_coset G H a x).mp hx
  rw [← he]
  exact hv.1 h (hsub h hh) a ha

theorem self_mem_left_coset [LinearOrder α] (G : Group α) (H : List α)
    (hv : G.Valid) (hid : G.identity ∈ H) {a : α} (ha : a ∈ G.elements) :
    a ∈ G.left_coset H a :=
  (mem_left_coset G H a a).mpr ⟨G.identity, hid, hv.2.2.2.1 a ha⟩

theorem self_mem_right_coset [LinearOrder α] (G : Group α) (H : List α)
    (hv : G.Valid) (hid : G.identity ∈ H) {a : α} (ha : a ∈ G.elements) :
    a ∈ G.right_coset H a :=
  (mem_right_coset G H a a).mpr ⟨G.identity, hid, hv.2.2.1 a ha⟩

theorem left_coset_subset_of_shared [LinearOrder α] (G : Group α) (H : List α)
    (hv : G.Valid) (hsub : ∀ h ∈ H, h ∈ G.elements)
    (hcl : ∀ a ∈ H, ∀ b ∈ H, G.fn a b ∈ H) (hinvH : ∀ a ∈ H, G.inv a ∈ H)
    {a b x : α} (ha : a ∈ G.elements) (hb : b ∈ G.elements)
    (hx1 : x ∈ G.left_coset H a) (hx2 : x ∈ G.left_coset H b) :
    ∀ y ∈ G.left_coset H a, y ∈ G.left_coset H b := by
  obtain ⟨h₁, hh₁, he₁⟩ := (mem_left_coset G H a x).mp hx1
  obtain ⟨h₂, hh₂, he₂⟩ := (mem_left_coset G H b x).mp hx2
  have hm₁ : h₁ ∈ G.elements := hsub h₁ hh₁
  have hm₂ : h₂ ∈ G.elements := hsub h₂ hh₂
  obtain ⟨hi₁, hfi₁, -⟩ := inv_spec G hv hm₁
  obtain ⟨hclosed, -, -, hidr, hassoc, -⟩ := hv
  have ha_eq : a = G.fn b (G.fn h₂ (G.inv h₁)) := by
    calc a = G.fn a G.identity := (hidr a ha).symm
      _ = G.fn a (G.fn h₁ (G.inv h₁)) := by rw [hfi₁]
      _ = G.fn (G.fn a h₁) (G.inv h₁) := (hassoc a ha h₁ hm₁ _ hi₁).symm
      _ = G.fn (G.fn b h₂) (G.inv h₁) := by rw [he₁, ← he₂]
      _ = G.fn b (G.fn h₂ (G.inv h₁)) := hassoc b hb h₂ hm₂ _ hi₁
  intro y hy
  obtain ⟨h₃, hh₃, he₃⟩ := (mem_left_coset G H a y).mp hy
  have hm₃ : h₃ ∈ G.elements := hsub h₃ hh₃
  have hq : G.fn h₂ (G.inv h₁) ∈ H := hcl h₂ hh₂ (G.inv h₁) (hinvH h₁ hh₁)
  refine (mem_left_coset G H b y).mpr ⟨G.fn (G.fn h₂ (G.inv h₁)) h₃,
    hcl _ hq h₃ hh₃, ?_⟩
  calc G.fn b (G.fn (G.fn h₂ (G.inv h₁)) h₃)
      = G.fn (G.fn b (G.fn h₂ (G.inv h₁))) h₃ :=
        (hassoc b hb _ (hsub _ hq) h₃ hm₃).symm
    _ = G.fn a h₃ := by rw [← ha_eq]
    _ = y := he₃

theorem right_coset_subset_of_shared [LinearOrder α] (G : Group α) (H : List α)
    (hv : G.Valid) (hsub : ∀ h ∈ H, h ∈ G.elements)
    (hcl : ∀ a ∈ H, ∀ b ∈ H, G.fn a b ∈ H) (hinvH : ∀ a ∈ H, G.inv a ∈ H)
    {a b x : α} (ha : a ∈ G.elements) (hb : b ∈ G.elements)
    (hx1 : x ∈ G.right_coset H a) (hx2 : x ∈ G.right_coset H b) :
    ∀ y ∈ G.right_coset H a, y ∈ G.right_coset H b := by
  obtain ⟨h₁, hh₁, he₁⟩ := (mem_right_coset G H a x).mp hx1
  obtain ⟨h₂, hh₂, he₂⟩ := (mem_right_coset G H b x).mp hx2
  have hm₁ : h₁ ∈ G.elements := hsub h₁ hh₁
  have hm₂ : h₂ ∈ G.elements := hsub h₂ hh₂
  obtain ⟨hi₁, -, hfi₁⟩ := inv_spec G hv hm₁
  obtain ⟨hclosed, -, hidl, -, hassoc, -⟩ := hv
  have ha_eq : a = G.fn (G.fn (G.inv h₁) h₂) b := by
    calc a = G.fn G.identity a := (hidl a ha).symm
      _ = G.fn (G.fn (G.inv h₁) h₁) a := by rw [hfi₁]
      _ = G.fn (G.inv h₁) (G.fn h₁ a) := hassoc _ hi₁ h₁ hm₁ a ha
      _ = G.fn (G.inv h₁) (G.fn h₂ b) := by rw [he₁, ← he₂]
      _ = G.fn (G.fn (G.inv h₁) h₂) b := (hassoc _ hi₁ h₂ hm₂ b hb).symm
  intro y hy
  obtain ⟨h₃, hh₃, he₃⟩ := (mem_right_coset G H a y).mp hy
  have hm₃ : h₃ ∈ G.elements := hsub h₃ hh₃
  have hq : G.fn (G.inv h₁) h₂ ∈ H := hcl (G.inv h₁) (hinvH h₁ hh₁) h₂ hh₂
  refine (mem_right_coset G H b y).mpr ⟨G.fn h₃ (G.fn (G.inv h₁) h₂),
    hcl h₃ hh₃ _ hq, ?_⟩
  calc G.fn (G.fn h₃ (G.fn (G.inv h₁) h₂)) b
      = G.fn h₃ (G.fn (G.fn (G.inv h₁) h₂) b) :=
        hassoc h₃ hm₃ _ (hsub _ hq) b hb
    _ = G.fn h₃ a := by rw [← ha_eq]
    _ = y := he₃

theorem left_coset_eq_of_shared [LinearOrder α] (G : Group α) (H : List α)
    (hv : G.Valid) (hsub : ∀ h ∈ H, h ∈ G.elements)
    (hcl : ∀ a ∈ H, ∀ b ∈ H, G.fn a b ∈ H) (hinvH : ∀ a ∈ H, G.inv a ∈ H)
    {a b x : α} (ha : a ∈ G.elements) (hb : b ∈ G.elements)
    (hx1 : x ∈ G.left_coset H a) (hx2 : x ∈ G.left_coset H b) :
    G.left_coset H a = G.left_coset H b := by
  have h1 := left_coset_subset_of_shared G H hv hsub hcl hinvH ha hb hx1 hx2
  have h2 := left_coset_subset_of_shared G H hv hsub hcl hinvH hb ha hx2 hx1
  unfold Group.left_coset
  exact canon_eq_of_mem_iff (fun y => by
    rw [← mem_canon (H.map (fun h => G.fn a h)) y,
      ← mem_canon (H.map (fun h => G.fn b h)) y]
    exact ⟨fun hy => h1 y hy, fun hy => h2 y hy⟩)

theorem right_coset_eq_of_shared [LinearOrder α] (G : Group α) (H : List α)
    (hv : G.Valid) (hsub : ∀ h ∈ H, h ∈ G.elements)
    (hcl : ∀ a ∈ H, ∀ b ∈ H, G.fn a b ∈ H) (hinvH : ∀ a ∈ H, G.inv a ∈ H)
    {a b x : α} (ha : a ∈ G.elements) (hb : b ∈ G.elements)
    (hx1 : x ∈ G.right_coset H a) (hx2 : x ∈ G.right_coset H b) :
    G.right_coset H a = G.right_coset H b := by
  have h1 := right_coset_subset_of_shared G H hv hsub hcl hinvH ha hb hx1 hx2
  have h2 := right_coset_subset_of_shared G H hv hsub hcl hinvH hb ha hx2 hx1
  unfold Group.right_coset
  exact canon_eq_of_mem_iff (fun y => by
    rw [← mem_canon (H.map (fun h => G.fn h a)) y,
      ← mem_canon (H.map (fun h => G.fn h b)) y]
    exact ⟨fun hy => h1 y hy, fun hy => h2 y hy⟩)

/-- C6: for a valid group `G` and a subgroup `H` (a duplicate-free sub-collection
containing the identity and closed under the operation and inverses),
`left_cosets(H)` and `right_cosets(H)` are partitions of the element
collection: every coset has exactly `|H|` elements, every element of `G` lies
in some emitted coset, every coset stays inside `G`'s elements, and distinct
emitted cosets are disjoint. -/
theorem cosets_partition [LinearOrder α] (G : Group α) (H : List α)
    (hv : G.Valid) (hsub : ∀ h ∈ H, h ∈ G.elements) (hnd : H.Nodup)
    (hid : G.identity ∈ H) (hcl : ∀ a ∈ H, ∀ b ∈ H, G.fn a b ∈ H)
    (hinvH : ∀ a ∈ H, G.inv a ∈ H) :
    ((∀ C ∈ G.left_cosets H, C.length = H.length) ∧
     (∀ g ∈ G.elements, ∃ C ∈ G.left_cosets H, g ∈ C) ∧
     (∀ C ∈ G.left_cosets H, ∀ x ∈ C, x ∈ G.elements) ∧
     (∀ C₁ ∈ G.left_cosets H, ∀ C₂ ∈ G.left_cosets H, C₁ ≠ C₂ →
       ∀ x ∈ C₁, x ∉ C₂)) ∧
    ((∀ C ∈ G.right_cosets H, C.length = H.length) ∧
     (∀ g ∈ G.elements, ∃ C ∈ G.right_cosets H, g ∈ C) ∧
     (∀ C ∈ G.right_cosets H, ∀ x ∈ C, x ∈ G.elements) ∧
     (∀ C₁ ∈ G.right_cosets H, ∀ C₂ ∈ G.right_cosets H, C₁ ≠ C₂ →
       ∀ x ∈ C₁, x ∉ C₂)) := by
  constructor
  · refine ⟨?_, ?_, ?_, ?_⟩
    · intro C hC
      obtain ⟨a, ha, rfl⟩ := (mem_left_cosets G H C).mp hC
      exact left_coset_length G H hv hsub hnd ha
    · intro g hg
      exact ⟨G.left_coset H g, (mem_left_cosets G H _).mpr ⟨g, hg, rfl⟩,
        self_mem_left_coset G H hv hid hg⟩
    · intro C hC
      obtain ⟨a, ha, rfl⟩ := (mem_left_cosets G H C).mp hC
      exact left_coset_subset_elements G H hv hsub ha
    · intro C₁ hC₁ C₂ hC₂ hne x hx₁ hx₂
      obtain ⟨a, ha, rfl⟩ := (mem_left_cosets G H C₁).mp hC₁
      obtain ⟨b, hb, rfl⟩ := (mem_left_cosets G H C₂).mp hC₂
      exact hne (left_coset_eq_of_shared G H hv hsub hcl hinvH ha hb hx₁ hx₂)
  · refine ⟨?_, ?_, ?_, ?_⟩
    · intro C hC
      obtain ⟨a, ha, rfl⟩ := (mem_right_cosets G H C).mp hC
      exact right_coset_length G H hv hsub hnd ha
    · intro g hg
      exact ⟨G.right_coset H g, (mem_right_cosets G H _).mpr ⟨g, hg, rfl⟩,
        self_mem_right_coset G H hv hid hg⟩
    · intro C hC
      obtain ⟨a, ha, rfl⟩ := (mem_right_cosets G H C).mp hC
      exact right_coset_subset_elements G H hv hsub ha
    · intro C₁ hC₁ C₂ hC₂ hne x hx₁ hx₂
      obtain ⟨a, ha, rfl⟩ := (mem_right_cosets G H C₁).mp hC₁
      obtain ⟨b, hb, rfl⟩ := (mem_right_cosets G H C₂).mp hC₂
      exact hne (right_coset_eq_of_shared G H hv hsub hcl hinvH ha hb hx₁ hx₂)

/-- C6 witness: the partition property evaluated on the cyclic group of
order 4 with the order-2 subgroup `[0, 2]` (the spec's own test case): the
element `3` is covered by an emitted left coset, and all right cosets have
exactly 2 elements. -/
theorem cosets_partition_witness :
    z4.Valid ∧ (∀ h ∈ ([0, 2] : List Nat), h ∈ z4.elements) ∧
    ([0, 2] : List Nat).Nodup ∧ z4.identity ∈ ([0, 2] : List Nat) ∧
    (∃ C ∈ z4.left_cosets [0, 2], 3 ∈ C) ∧
    (∀ C ∈ z4.right_cosets [0, 2], C.length = ([0, 2] : List Nat).length) :=
  ⟨by decide, by decide, by decide, by decide,
   (cosets_partition z4 [0, 2] (by decide) (by decide) (by decide) (by decide)
     (by decide) (by decide)).1.2.1 3 (by decide),
   (cosets_partition z4 [0, 2] (by decide) (by decide) (by decide) (by decide)
     (by decide) (by decide)).2.1⟩

end Groups
